import Mathlib

/-!
Shallow embedding of the line-editing core of `src/linenoise.c`
(extrowerk/linenoise-mob): edit-buffer mutation operations, the key
decoder dispatch for escape sequences, the single-line and multi-line
refresh geometry, and the bounded history store.

Conventions of the embedding:
* bytes are `Nat` values (the value of the corresponding C `char`);
* the edit buffer is the physical array `data : List Nat` whose length is
  the allocated size of the C buffer; `len` and `pos` are the `l->len`
  and `l->pos` fields; `buflen` is `l->buflen` after the `l.buflen--`
  performed at session start (it reserves one byte for the terminator);
* the encoding strategy is the default one of the source
  (`defaultPrevCharLen` / `defaultNextCharLen`: one byte, one column);
* `size_t` arithmetic that can wrap is made explicit with `% 2 ^ 64`.
-/

namespace Linenoise

/-- Allocated buffer state during line editing: the fields of
`struct linenoiseState` that the pure editing operations touch. -/
structure LState where
  data : List Nat
  buflen : Nat
  pos : Nat
  len : Nat
  deriving Repr, DecidableEq

/-- `memcpy`-like in-place write of `src` into `d` starting at index `i`
(the shape shared by the `memmove`/`memcpy` calls of the source, which on
the relevant inputs always stay inside the allocation). -/
def writeAt (d : List Nat) (i : Nat) (src : List Nat) : List Nat :=
  d.take i ++ src ++ d.drop (i + src.length)

/-- Byte length of the character before `pos`: `defaultPrevCharLen`
(the default encoding ignores the buffer and answers one byte). -/
def defaultPrevCharLen (_buf : List Nat) (_bufLen _pos : Nat) : Nat :=
  1

/-- Column width of the character before `pos` in the default encoding
(the `col_len` out-parameter of `defaultPrevCharLen`). -/
def defaultPrevCharColLen (_buf : List Nat) (_bufLen _pos : Nat) : Nat :=
  1

/-- Byte length of the character at `pos`: `defaultNextCharLen`. -/
def defaultNextCharLen (_buf : List Nat) (_bufLen _pos : Nat) : Nat :=
  1

/-- Column width of the character at `pos` in the default encoding
(the `col_len` out-parameter of `defaultNextCharLen`). -/
def defaultNextCharColLen (_buf : List Nat) (_bufLen _pos : Nat) : Nat :=
  1

/-- `linenoiseEditInsert`: splice `cbuf` at the cursor when it fits
(`l->len + clen <= l->buflen`), otherwise do nothing.  The C function
returns `-1` only when the terminal write fails (I/O, outside this pure
model) and `0` in every other case, including the capacity no-op. -/
def linenoiseEditInsert (s : LState) (cbuf : List Nat) : LState :=
  let clen := cbuf.length
  if s.len + clen ≤ s.buflen then
    if s.len = s.pos then
      { s with
        data := ((writeAt s.data s.pos cbuf).set (s.len + clen) 0)
        pos := s.pos + clen
        len := s.len + clen }
    else
      let moved := writeAt s.data (s.pos + clen)
        ((s.data.drop s.pos).take (s.len - s.pos))
      { s with
        data := ((writeAt moved s.pos cbuf).set (s.len + clen) 0)
        pos := s.pos + clen
        len := s.len + clen }
  else s

/-- `linenoiseEditMoveLeft`. -/
def linenoiseEditMoveLeft (s : LState) : LState :=
  if 0 < s.pos then
    { s with pos := s.pos - defaultPrevCharLen s.data s.len s.pos }
  else s

/-- `linenoiseEditMoveRight`. -/
def linenoiseEditMoveRight (s : LState) : LState :=
  if s.pos ≠ s.len then
    { s with pos := s.pos + defaultNextCharLen s.data s.len s.pos }
  else s

/-- `linenoiseEditMoveHome`. -/
def linenoiseEditMoveHome (s : LState) : LState :=
  if s.pos ≠ 0 then { s with pos := 0 } else s

/-- `linenoiseEditMoveEnd`. -/
def linenoiseEditMoveEnd (s : LState) : LState :=
  if s.pos ≠ s.len then { s with pos := s.len } else s

/-- `linenoiseEditDelete`: remove the character at the cursor. -/
def linenoiseEditDelete (s : LState) : LState :=
  if 0 < s.len ∧ s.pos < s.len then
    let chlen := defaultNextCharLen s.data s.len s.pos
    let moved := writeAt s.data s.pos
      ((s.data.drop (s.pos + chlen)).take (s.len - s.pos - chlen))
    { s with
      data := moved.set (s.len - chlen) 0
      len := s.len - chlen }
  else s

/-- `linenoiseEditBackspace`: remove the character before the cursor. -/
def linenoiseEditBackspace (s : LState) : LState :=
  if 0 < s.pos ∧ 0 < s.len then
    let chlen := defaultPrevCharLen s.data s.len s.pos
    let moved := writeAt s.data (s.pos - chlen)
      ((s.data.drop s.pos).take (s.len - s.pos))
    { s with
      data := moved.set (s.len - chlen) 0
      pos := s.pos - chlen
      len := s.len - chlen }
  else s

/-- Byte at index `i` of the buffer, checked against the claimed safe
range `[0, len]` (content bytes plus the terminator slot): `none` records
a read outside that range. -/
def readIdx (s : LState) (i : Nat) : Option Nat :=
  if i ≤ s.len then some (s.data.getD i 0) else none

/-- The modulus of C `size_t` arithmetic on the reference 64-bit target. -/
def sizeTMod : Nat := 2 ^ 64

/-- Loop `while (l->pos > 0 && l->buf[l->pos] == 32) --l->pos` of
`linenoiseEditMoveWordStart`, with every read checked. -/
def mwsSkipSpaces (s : LState) : Nat → Option Nat
  | 0 => some 0
  | p + 1 =>
    match readIdx s (p + 1) with
    | Option.none => Option.none
    | some c => if c = 32 then mwsSkipSpaces s p else some (p + 1)

/-- Loop `while (l->pos > 0 && l->buf[l->pos-1] != 32) --l->pos` of
`linenoiseEditMoveWordStart`, with every read checked. -/
def mwsSkipWord (s : LState) : Nat → Option Nat
  | 0 => some 0
  | p + 1 =>
    match readIdx s p with
    | Option.none => Option.none
    | some c => if c ≠ 32 then mwsSkipWord s p else some (p + 1)

/-- `linenoiseEditMoveWordStart`, instrumented: it returns the new cursor
position, or `none` as soon as a buffer read falls outside `[0, len]`.
The first read is `l->buf[l->pos-1]` where `pos` and the index are
`size_t`, so at `pos = 0` the index wraps to `2 ^ 64 - 1`. -/
def linenoiseEditMoveWordStart (s : LState) : Option Nat :=
  if s.len = 0 then some s.pos
  else
    match readIdx s ((s.pos + sizeTMod - 1) % sizeTMod) with
    | Option.none => Option.none
    | some c1 =>
      let pos1 := if c1 = 32 then s.pos - 1 else s.pos
      match readIdx s pos1 with
      | Option.none => Option.none
      | some c2 =>
        match (if c2 = 32 then mwsSkipSpaces s pos1 else some pos1) with
        | Option.none => Option.none
        | some pos2 => mwsSkipWord s pos2

/-- The byte the C expression `l->buf[i]` yields for a wrapped `size_t`
index `i` on a 64-bit target: inside the allocation it is the buffer
byte; outside it, `buf + i` points into surrounding process memory, and
the byte found there is the explicit parameter `preByte` (the model is
used only where a single out-of-allocation address, `buf - 1`, namely
index `2 ^ 64 - 1`, is ever dereferenced). -/
def bufReadWrap (preByte : Nat) (s : LState) (i : Nat) : Nat :=
  if i < s.data.length then s.data.getD i 0 else preByte

/-- The first statements of `linenoiseEditMoveWordStart` (lines
853-854): the `l->len == 0` early return, then
`if (l->buf[l->pos-1] == 32) --l->pos;` with `pos` and the index
computed in `size_t` arithmetic; the result is the value of `l->pos`
after that conditional.  Unlike the two loops that follow it, this read
has no `pos > 0` guard, so at `pos = 0` the index wraps to `2 ^ 64 - 1`
and the comparison is decided by the out-of-allocation byte `preByte`;
when it is 32 the decrement wraps the cursor itself. -/
def moveWordStartFirstIf (preByte : Nat) (s : LState) : Nat :=
  if s.len = 0 then s.pos
  else if bufReadWrap preByte s ((s.pos + sizeTMod - 1) % sizeTMod) = 32
    then (s.pos + sizeTMod - 1) % sizeTMod
    else s.pos

/-- Loop `while (l->pos > 0 && l->buf[l->pos-1] == 32) l->pos--` of
`linenoiseEditDeletePrevWord` (all reads are guarded by `pos > 0`). -/
def dpwSkipSpaces (data : List Nat) : Nat → Nat
  | 0 => 0
  | p + 1 => if data.getD p 0 = 32 then dpwSkipSpaces data p else p + 1

/-- Loop `while (l->pos > 0 && l->buf[l->pos-1] != 32) l->pos--` of
`linenoiseEditDeletePrevWord`. -/
def dpwSkipWord (data : List Nat) : Nat → Nat
  | 0 => 0
  | p + 1 => if data.getD p 0 ≠ 32 then dpwSkipWord data p else p + 1

/-- `linenoiseEditDeletePrevWord`: note that its `memmove` copies
`l->len - old_pos + 1` bytes, which includes the null terminator. -/
def linenoiseEditDeletePrevWord (s : LState) : LState :=
  let oldPos := s.pos
  let p2 := dpwSkipWord s.data (dpwSkipSpaces s.data s.pos)
  let diff := oldPos - p2
  let moved := writeAt s.data p2
    ((s.data.drop oldPos).take (s.len - oldPos + 1))
  { s with data := moved, pos := p2, len := s.len - diff }

/-- Loop advancing `next_word_end` over spaces in
`linenoiseEditDeleteNextWord` (reads guarded by `next_word_end < len`).
The structural `fuel` argument is the loop variant `len - pos`: while the
guard `pos < len` holds the fuel is positive, and when it reaches zero
the guard is false, so the fuel never runs out before the C loop exits. -/
def dnwSkipSpacesGo (data : List Nat) (len : Nat) : Nat → Nat → Nat
  | 0, pos => pos
  | fuel + 1, pos =>
    if pos < len ∧ data.getD pos 0 = 32 then
      dnwSkipSpacesGo data len fuel (pos + 1)
    else pos

/-- Loop `while (next_word_end < l->len && l->buf[next_word_end] == 32)`. -/
def dnwSkipSpaces (data : List Nat) (len pos : Nat) : Nat :=
  dnwSkipSpacesGo data len (len - pos) pos

/-- Loop advancing `next_word_end` over non-spaces in
`linenoiseEditDeleteNextWord`, with the same fuel convention. -/
def dnwSkipWordGo (data : List Nat) (len : Nat) : Nat → Nat → Nat
  | 0, pos => pos
  | fuel + 1, pos =>
    if pos < len ∧ data.getD pos 0 ≠ 32 then
      dnwSkipWordGo data len fuel (pos + 1)
    else pos

/-- Loop `while (next_word_end < l->len && l->buf[next_word_end] != 32)`. -/
def dnwSkipWord (data : List Nat) (len pos : Nat) : Nat :=
  dnwSkipWordGo data len (len - pos) pos

/-- `linenoiseEditDeleteNextWord`: its `memmove` copies
`l->len - next_word_end` bytes, which does not include the terminator. -/
def linenoiseEditDeleteNextWord (s : LState) : LState :=
  let nwe := dnwSkipWord s.data s.len (dnwSkipSpaces s.data s.len s.pos)
  let moved := writeAt s.data s.pos ((s.data.drop nwe).take (s.len - nwe))
  { s with data := moved, len := s.len - (nwe - s.pos) }

/-- The `CTRL_U` case of `linenoiseEdit`: clear the whole line
(`buf[0] = 0; l.pos = l.len = 0`). -/
def killWholeLine (s : LState) : LState :=
  { s with data := s.data.set 0 0, pos := 0, len := 0 }

/-- The `CTRL_K` case of `linenoiseEdit`: truncate at the cursor
(`buf[l.pos] = 0; l.len = l.pos`). -/
def killToEnd (s : LState) : LState :=
  { s with data := s.data.set s.pos 0, len := s.pos }

/-- The `CTRL_T` case of `linenoiseEdit`: swap the characters around the
cursor and advance unless the cursor is at the last position. -/
def transposeChars (s : LState) : LState :=
  if 0 < s.pos ∧ s.pos < s.len then
    let aux := s.data.getD (s.pos - 1) 0
    let d2 := (s.data.set (s.pos - 1) (s.data.getD s.pos 0)).set s.pos aux
    let newPos := if s.pos ≠ s.len - 1 then s.pos + 1 else s.pos
    { s with data := d2, pos := newPos }
  else s

/-- The null-terminated content of the buffer: its first `len` bytes. -/
def content (s : LState) : List Nat :=
  s.data.take s.len

/-- One editing operation of the kind quantified over by the buffer
invariant: an insertion of a byte sequence, a forward delete, a
backspace, or one of the four unconditional cursor moves of the key
decoder (left, right, home, end). -/
inductive EOp where
  | insert (cbuf : List Nat)
  | delete
  | backspace
  | moveLeft
  | moveRight
  | moveHome
  | moveEnd
  deriving Repr, DecidableEq

/-- Dispatch one operation to the corresponding source function. -/
def applyOp (s : LState) : EOp → LState
  | EOp.insert cbuf => linenoiseEditInsert s cbuf
  | EOp.delete => linenoiseEditDelete s
  | EOp.backspace => linenoiseEditBackspace s
  | EOp.moveLeft => linenoiseEditMoveLeft s
  | EOp.moveRight => linenoiseEditMoveRight s
  | EOp.moveHome => linenoiseEditMoveHome s
  | EOp.moveEnd => linenoiseEditMoveEnd s

/-- Apply a sequence of operations from left to right. -/
def applyOps (s : LState) : List EOp → LState
  | [] => s
  | op :: ops => applyOps (applyOp s op) ops

/-- The session state set up at the top of `linenoiseEdit` for a caller
buffer of allocated size `n`: `l.len = l.pos = 0`, `buf[0] = 0`, and
`l.buflen--` reserving the terminator slot.  The C stack buffer is
uninitialized past index 0; this model zero-fills it, which no claim
depends on. -/
def initState (n : Nat) : LState :=
  { data := List.replicate n 0, buflen := n - 1, pos := 0, len := 0 }

/-! ## History store -/

/-- `linenoiseHistoryAdd`: entries are C strings, embedded as byte
lists; the history is the list of entries, oldest first; the result pairs
the new history with the C return value (`true` for 1, `false` for 0).
The adjacent-duplicate test is `strcmp` equality with the last entry.
Allocation failures of `malloc`/`strdup` (which also return 0 and leave
the store unchanged) are outside this pure model. -/
def linenoiseHistoryAdd (history : List (List Nat)) (historyMaxLen : Nat)
    (line : List Nat) : List (List Nat) × Bool :=
  if historyMaxLen = 0 then (history, false)
  else if history.length ≠ 0 ∧ history.getLast? = some line then
    (history, false)
  else
    let h1 := if history.length = historyMaxLen then history.tail else history
    (h1 ++ [line], true)

/-- `linenoiseHistorySetMaxLen`: `len` is the C `int` argument; the
result is the new history, the new `history_max_len`, and the C return
value.  When the store was never allocated (`history == NULL`) the C code
skips the trimming; that case coincides with the empty list here. -/
def linenoiseHistorySetMaxLen (history : List (List Nat))
    (historyMaxLen : Nat) (len : Int) : List (List Nat) × Nat × Bool :=
  if len < 1 then (history, historyMaxLen, false)
  else
    let n := len.toNat
    let tocopy := if n < history.length then n else history.length
    let h1 := history.drop (history.length - tocopy)
    (h1, n, true)

/-- The slice of `struct linenoiseState` plus the global history that
`linenoiseEditHistoryNext` manipulates.  `buf` holds exactly the
null-terminated content of the C buffer, so `l->len` is `buf.length`;
`buflen` is the `strncpy` bound. -/
structure NavState where
  history : List (List Nat)
  buf : List Nat
  buflen : Nat
  pos : Nat
  historyIndex : Int
  deriving Repr, DecidableEq

/-- `LINENOISE_HISTORY_NEXT`. -/
def LINENOISE_HISTORY_NEXT : Nat := 0

/-- `LINENOISE_HISTORY_PREV`. -/
def LINENOISE_HISTORY_PREV : Nat := 1

/-- `linenoiseEditHistoryNext`: overwrite the entry at the current
index with the live buffer, move the index (clamping at both ends, where
the clamped move returns without copying), then copy the target entry
into the live buffer with `strncpy` truncation and put the cursor at the
end. -/
def linenoiseEditHistoryNext (s : NavState) (dir : Nat) : NavState :=
  if 1 < s.history.length then
    let n : Int := s.history.length
    let h1 := s.history.set (n - 1 - s.historyIndex).toNat s.buf
    let idx1 := s.historyIndex + (if dir = LINENOISE_HISTORY_PREV then 1 else -1)
    if idx1 < 0 then
      { s with history := h1, historyIndex := 0 }
    else if n ≤ idx1 then
      { s with history := h1, historyIndex := n - 1 }
    else
      let entry := h1.getD (n - 1 - idx1).toNat []
      let newBuf := entry.take (s.buflen - 1)
      { s with history := h1, historyIndex := idx1,
               buf := newBuf, pos := newBuf.length }
  else s

/-! ## Key decoder: escape-sequence dispatch -/

/-- The editing action selected by one iteration of the `ESC` case of
the `linenoiseEdit` dispatch loop. -/
inductive EditAction where
  | noAction
  | moveWordEnd
  | moveWordStart
  | deleteNextWord
  | historyPrev
  | historyNext
  | moveRight
  | moveLeft
  | moveHome
  | moveEnd
  | deleteRight
  deriving Repr, DecidableEq

/-- The `ESC` case of `linenoiseEdit` (lines 1067-1139): `input` is the
byte stream following the `ESC` byte; an empty stream stands for a failed
`read`, which breaks out with no action.  Byte constants: 91 is the
opening square bracket, 48..57 are the digits, 79 is capital O, 126 is
the tilde.  Note the source guard compares `seq[0]` with the digit 48,
not with the letter 79, before taking the bracket branch. -/
def escDispatch (input : List Nat) : EditAction :=
  match input with
  | [] => EditAction.noAction
  | b1 :: rest =>
    if b1 ≠ 91 ∧ b1 ≠ 48 then
      -- "ESC ? sequences": 102 is f, 98 is b, 100 is d
      if b1 = 102 then EditAction.moveWordEnd
      else if b1 = 98 then EditAction.moveWordStart
      else if b1 = 100 then EditAction.deleteNextWord
      else EditAction.noAction
    else
      match rest with
      | [] => EditAction.noAction
      | b2 :: rest2 =>
        if b1 = 91 then
          -- "ESC [ sequences"
          if 48 ≤ b2 ∧ b2 ≤ 57 then
            match rest2 with
            | [] => EditAction.noAction
            | b3 :: _ =>
              if b3 = 126 then
                if b2 = 51 then EditAction.deleteRight else EditAction.noAction
              else EditAction.noAction
          else
            -- 65 A, 66 B, 67 C, 68 D, 72 H, 70 F, 100 d, 49 1, 52 4
            if b2 = 65 then EditAction.historyPrev
            else if b2 = 66 then EditAction.historyNext
            else if b2 = 67 then EditAction.moveRight
            else if b2 = 68 then EditAction.moveLeft
            else if b2 = 72 then EditAction.moveHome
            else if b2 = 70 then EditAction.moveEnd
            else if b2 = 100 then EditAction.deleteNextWord
            else if b2 = 49 then EditAction.moveHome
            else if b2 = 52 then EditAction.moveEnd
            else EditAction.noAction
        else
          -- "ESC O sequences": only reachable with b1 = 48 (the digit),
          -- so the comparison with 79 (letter O) below never succeeds
          if b1 = 79 then
            if b2 = 72 then EditAction.moveHome
            else if b2 = 70 then EditAction.moveEnd
            else EditAction.noAction
          else EditAction.noAction

/-! ## Render geometry -/

/-- Loop body of `columnPos`: walk `off` from 0 to `pos` accumulating
the column widths given by the encoding strategy.  The structural `fuel`
argument is the loop variant `pos - off` (each iteration advances `off`
by `nextCharLen = 1`, so the fuel reaches zero exactly when the loop
condition `off < pos` fails). -/
def columnPosGo (buf : List Nat) (bufLen pos : Nat) : Nat → Nat → Nat → Nat
  | 0, _off, ret => ret
  | fuel + 1, off, ret =>
    if off < pos then
      columnPosGo buf bufLen pos fuel (off + defaultNextCharLen buf bufLen off)
        (ret + defaultNextCharColLen buf bufLen off)
    else ret

/-- `columnPos`: column length from the beginning of the buffer to byte
position `pos`. -/
def columnPos (buf : List Nat) (bufLen pos : Nat) : Nat :=
  columnPosGo buf bufLen pos pos 0 0

/-- First clipping loop of `refreshSingleLine`: while the prompt plus
the columns up to the cursor reach the terminal width, drop one character
from the left edge of the window (`buf += chlen; len -= chlen;
pos -= chlen`).  The fuel is the loop variant `pos` (each iteration
lowers `pos` by `chlen = 1`).  When `pos = 0` and the condition still
holds, the C loop would wrap its `size_t` counters; that situation is
unreachable whenever the prompt is narrower than the terminal, and the
fuel runs out there. -/
def singleClipLeftGo (pcollen cols : Nat) :
    Nat → List Nat → Nat → Nat → List Nat × Nat × Nat
  | 0, buf, len, pos => (buf, len, pos)
  | fuel + 1, buf, len, pos =>
    if cols ≤ pcollen + columnPos buf len pos then
      let chlen := defaultNextCharLen buf len 0
      singleClipLeftGo pcollen cols fuel (buf.drop chlen) (len - chlen)
        (pos - chlen)
    else (buf, len, pos)

/-- The first `while` of `refreshSingleLine` (source lines 666-671). -/
def singleClipLeft (pcollen cols : Nat) (buf : List Nat) (len pos : Nat) :
    List Nat × Nat × Nat :=
  singleClipLeftGo pcollen cols pos buf len pos

/-- Second clipping loop of `refreshSingleLine`: while the prompt plus
the full window width exceeds the terminal width, drop one character from
the right edge (`len -= prevCharLen(buf,len,len)`).  The fuel is the
loop variant `len`. -/
def singleClipRightGo (pcollen cols : Nat) (buf : List Nat) :
    Nat → Nat → Nat
  | 0, len => len
  | fuel + 1, len =>
    if cols < pcollen + columnPos buf len len then
      singleClipRightGo pcollen cols buf fuel
        (len - defaultPrevCharLen buf len len)
    else len

/-- The second `while` of `refreshSingleLine` (source lines 672-674). -/
def singleClipRight (pcollen cols : Nat) (buf : List Nat) (len : Nat) :
    Nat :=
  singleClipRightGo pcollen cols buf len len

/-- The window computed by the two clipping loops at the top of
`refreshSingleLine`: the visible buffer suffix, its byte length, and the
cursor offset inside it. -/
def refreshSingleLineClip (pcollen cols : Nat) (buf : List Nat)
    (len pos : Nat) : List Nat × Nat × Nat :=
  let r := singleClipLeft pcollen cols buf len pos
  (r.1, singleClipRight pcollen cols r.1 r.2.1, r.2.2)

/-- Loop body of `columnPosForMultiLine`: accumulate column widths,
carrying the wrap excess `dif` into the running column of the next row.
`dif` is the C `int` expression `(colwid + col_len) - cols`.  The fuel is
the loop variant `bufLen - off`; it reaches zero exactly when the loop
condition `off < buf_len` fails. -/
def columnPosForMultiLineGo (buf : List Nat) (bufLen pos cols : Nat) :
    Nat → Nat → Nat → Nat → Nat
  | 0, _off, ret, _colwid => ret
  | fuel + 1, off, ret, colwid =>
    if off < bufLen then
      let len := defaultNextCharLen buf bufLen off
      let colLen := defaultNextCharColLen buf bufLen off
      let dif : Int := (colwid : Int) + (colLen : Int) - (cols : Int)
      let ret1 := if 0 < dif then ret + (colwid + colLen - cols) else ret
      let colwid1 :=
        if 0 < dif then colLen else if dif = 0 then 0 else colwid + colLen
      if pos ≤ off then ret1
      else columnPosForMultiLineGo buf bufLen pos cols fuel (off + len)
        (ret1 + colLen) colwid1
    else ret

/-- `columnPosForMultiLine`: column length from the beginning of the
buffer to byte position `pos` in multi-line mode, starting from an
initial column `iniPos` (the prompt width). -/
def columnPosForMultiLine (buf : List Nat) (bufLen pos cols iniPos : Nat) :
    Nat :=
  columnPosForMultiLineGo buf bufLen pos cols bufLen 0 0 iniPos

/-- The row count of `refreshMultiLine`:
`rows = (pcollen + colpos + l->cols - 1) / l->cols` with
`colpos = columnPosForMultiLine(l->buf, l->len, l->len, l->cols, pcollen)`. -/
def multiLineRows (buf : List Nat) (bufLen pcollen cols : Nat) : Nat :=
  (pcollen + columnPosForMultiLine buf bufLen bufLen cols pcollen
    + cols - 1) / cols

/-! ## Theorems -/

/-- C2: the claim that every mutating operation preserves
null-termination fails on `linenoiseEditDeleteNextWord`.  On the buffer
holding the C string formed of the bytes 97 98 32 99 100 (with the
terminator at index `len = 5`) and the cursor at 0, the operation leaves
`len = 3` but byte 99 (not 0) at index 3: its `memmove` copies
`len - next_word_end` bytes, omitting the terminator that
`linenoiseEditDeletePrevWord` does copy, while the accepted line is later
read back with `strdup`/`strlen`. -/
theorem deleteNextWord_drops_null_terminator :
    ((⟨[97, 98, 32, 99, 100, 0], 5, 0, 5⟩ : LState).data.getD 5 0 = 0) ∧
    (linenoiseEditDeleteNextWord ⟨[97, 98, 32, 99, 100, 0], 5, 0, 5⟩).len
      = 3 ∧
    ((linenoiseEditDeleteNextWord
        ⟨[97, 98, 32, 99, 100, 0], 5, 0, 5⟩).data.getD 3 0 = 99) := by
  decide

/-- C4: the claim that `ESC O H` / `ESC O F` perform move-home/move-end
fails.  The guard at line 1070 compares the lead byte with the digit 0
(byte 48) instead of the letter O (byte 79), so a lead byte 79 falls into
the meta branch and matches nothing: both sequences dispatch to no
action, and the keypad branch at line 1129 is unreachable. -/
theorem escDispatch_O_keypad_dead :
    escDispatch [79, 72] = EditAction.noAction ∧
    escDispatch [79, 70] = EditAction.noAction ∧
    escDispatch [91, 72] = EditAction.moveHome ∧
    escDispatch [91, 70] = EditAction.moveEnd := by
  decide

/-- C9: starting from history entries 97 ("a") and 98 ("b") plus the
scratch slot mirroring the live buffer 99 ("c") at index 0, previous,
previous, next, next restores the live buffer, the index, and the cursor
at end of line, leaving the history as it was. -/
theorem historyNavRoundTrip :
    (linenoiseEditHistoryNext (linenoiseEditHistoryNext
        (linenoiseEditHistoryNext (linenoiseEditHistoryNext
          ⟨[[97], [98], [99]], [99], 4096, 1, 0⟩
          LINENOISE_HISTORY_PREV) LINENOISE_HISTORY_PREV)
        LINENOISE_HISTORY_NEXT) LINENOISE_HISTORY_NEXT)
      = ⟨[[97], [98], [99]], [99], 4096, 1, 0⟩ := by
  decide

/-- C5: `linenoiseHistoryAdd` is a no-op when the configured capacity is
zero or when the line equals the newest entry; otherwise it appends the
line, first shifting out the oldest entry when the store is at capacity;
it never grows the store beyond the capacity; adding the same line twice
leaves the store as after the first add; and adding x, y, x to an empty
store with the default capacity 100 yields length 3. -/
theorem linenoiseHistoryAdd_spec (h : List (List Nat)) (n : Nat)
    (line : List Nat) :
    (n = 0 → linenoiseHistoryAdd h n line = (h, false)) ∧
    (h.getLast? = some line → linenoiseHistoryAdd h n line = (h, false)) ∧
    (0 < n → h.getLast? ≠ some line →
      (linenoiseHistoryAdd h n line).1 =
        (if h.length = n then h.tail else h) ++ [line]) ∧
    (h.length ≤ n → (linenoiseHistoryAdd h n line).1.length ≤ n) ∧
    ((linenoiseHistoryAdd (linenoiseHistoryAdd h n line).1 n line).1 =
      (linenoiseHistoryAdd h n line).1) ∧
    ((linenoiseHistoryAdd (linenoiseHistoryAdd
        (linenoiseHistoryAdd [] 100 [120]).1 100 [121]).1 100
        [120]).1.length = 3) := by
  refine ⟨?_, ?_, ?_, ?_, ?_, by decide⟩
  · intro h0
    simp [linenoiseHistoryAdd, h0]
  · intro hl
    by_cases hn : n = 0
    · simp [linenoiseHistoryAdd, hn]
    · have hne : h.length ≠ 0 := by
        cases h with
        | nil => simp at hl
        | cons a t => simp
      simp [linenoiseHistoryAdd, hn, hne, hl]
  · intro hn hnl
    have hn' : n ≠ 0 := by omega
    simp [linenoiseHistoryAdd, hn', hnl]
  · intro hlen
    by_cases hn : n = 0
    · simpa [linenoiseHistoryAdd, hn] using hlen
    · by_cases hdup : h.length ≠ 0 ∧ h.getLast? = some line
      · simpa [linenoiseHistoryAdd, hn, hdup] using hlen
      · simp only [linenoiseHistoryAdd, if_neg hn, if_neg hdup]
        by_cases hfull : h.length = n
        · simp [hfull, List.length_tail]
          omega
        · simp [hfull]
          omega
  · by_cases hn : n = 0
    · simp [linenoiseHistoryAdd, hn]
    · by_cases hdup : h.length ≠ 0 ∧ h.getLast? = some line
      · simp [linenoiseHistoryAdd, hn, hdup]
      · have h1 : (linenoiseHistoryAdd h n line).1 =
            (if h.length = n then h.tail else h) ++ [line] := by
          simp only [linenoiseHistoryAdd, if_neg hn, if_neg hdup]
        rw [h1]
        simp [linenoiseHistoryAdd, hn, List.getLast?_concat]

/-- C5 witness: the parametric specification applied at concrete
stores. -/
theorem linenoiseHistoryAdd_spec_witness :
    (linenoiseHistoryAdd [[97]] 3 [98]).1 = [[97], [98]] ∧
    (linenoiseHistoryAdd [[97], [98], [99]] 3 [100]).1 =
      [[98], [99], [100]] := by
  constructor
  · have hx := (linenoiseHistoryAdd_spec [[97]] 3 [98]).2.2.1
      (by decide) (by decide)
    simpa using hx
  · have hy := (linenoiseHistoryAdd_spec [[97], [98], [99]] 3 [100]).2.2.1
      (by decide) (by decide)
    simpa using hy

/-- C6: `linenoiseHistorySetMaxLen` fails and changes nothing for every
argument below 1; for every argument of at least 1 applied to a store
with more entries than that, it keeps exactly the newest entries in their
original relative order and installs the new capacity ceiling. -/
theorem linenoiseHistorySetMaxLen_spec (h : List (List Nat)) (m : Nat)
    (n : Int) :
    (n < 1 → linenoiseHistorySetMaxLen h m n = (h, m, false)) ∧
    (1 ≤ n → n < (h.length : Int) →
      (linenoiseHistorySetMaxLen h m n).1 =
        h.drop (h.length - n.toNat) ∧
      (linenoiseHistorySetMaxLen h m n).1.length = n.toNat ∧
      (linenoiseHistorySetMaxLen h m n).2.1 = n.toNat ∧
      (linenoiseHistorySetMaxLen h m n).2.2 = true) := by
  constructor
  · intro hlt
    simp [linenoiseHistorySetMaxLen, hlt]
  · intro h1 h2
    have hnlt : ¬ n < 1 := by omega
    have htoc : n.toNat < h.length := by omega
    simp [linenoiseHistorySetMaxLen, hnlt, htoc]
    omega

/-- C6 witness: trimming a three-entry store to two keeps the newest two
in order; a zero argument fails and changes nothing. -/
theorem linenoiseHistorySetMaxLen_spec_witness :
    (linenoiseHistorySetMaxLen [[97], [98], [99]] 100 2).1 =
      [[98], [99]] ∧
    linenoiseHistorySetMaxLen [[97], [98]] 100 0 =
      ([[97], [98]], 100, false) := by
  constructor
  · have hw := ((linenoiseHistorySetMaxLen_spec [[97], [98], [99]] 100
      2).2 (by decide) (by decide)).1
    simpa using hw
  · exact (linenoiseHistorySetMaxLen_spec [[97], [98]] 100 0).1
      (by decide)

lemma applyOp_buflen (s : LState) (op : EOp) :
    (applyOp s op).buflen = s.buflen := by
  cases op <;>
    simp only [applyOp, linenoiseEditInsert, linenoiseEditDelete,
      linenoiseEditBackspace, linenoiseEditMoveLeft, linenoiseEditMoveRight,
      linenoiseEditMoveHome, linenoiseEditMoveEnd] <;>
    split_ifs <;> rfl

lemma applyOp_inv (s : LState) (op : EOp) (h1 : s.pos ≤ s.len)
    (h2 : s.len ≤ s.buflen) :
    (applyOp s op).pos ≤ (applyOp s op).len ∧
    (applyOp s op).len ≤ (applyOp s op).buflen := by
  cases op with
  | insert cbuf =>
    simp only [applyOp, linenoiseEditInsert]
    split_ifs <;> simp_all <;> omega
  | delete =>
    simp only [applyOp, linenoiseEditDelete, defaultNextCharLen]
    split_ifs <;> simp_all <;> omega
  | backspace =>
    simp only [applyOp, linenoiseEditBackspace, defaultPrevCharLen]
    split_ifs <;> simp_all <;> omega
  | moveLeft =>
    simp only [applyOp, linenoiseEditMoveLeft, defaultPrevCharLen]
    split_ifs <;> simp_all <;> omega
  | moveRight =>
    simp only [applyOp, linenoiseEditMoveRight, defaultNextCharLen]
    split_ifs with hc <;> simp_all <;> omega
  | moveHome =>
    simp only [applyOp, linenoiseEditMoveHome]
    split_ifs <;> simp_all
  | moveEnd =>
    simp only [applyOp, linenoiseEditMoveEnd]
    split_ifs <;> simp_all

lemma applyOps_inv (ops : List EOp) (s : LState) (h1 : s.pos ≤ s.len)
    (h2 : s.len ≤ s.buflen) :
    (applyOps s ops).pos ≤ (applyOps s ops).len ∧
    (applyOps s ops).len ≤ (applyOps s ops).buflen ∧
    (applyOps s ops).buflen = s.buflen := by
  induction ops generalizing s with
  | nil => exact ⟨h1, h2, rfl⟩
  | cons op ops ih =>
    have hop := applyOp_inv s op h1 h2
    have hb := applyOp_buflen s op
    obtain ⟨a, b, c⟩ := ih (applyOp s op) hop.1 hop.2
    exact ⟨a, b, by rw [applyOps]; exact c.trans hb⟩

/-- Supporting result (not the whole of the invariant claim, whose
cursor-move operations also include the word motions): for every
sequence of insert, delete, backspace and unconditional cursor moves
(left, right, home, end) applied to the session that `linenoiseEdit`
starts empty over a caller buffer of allocated size `n` (so
`l->buflen = n - 1` after the terminator slot is reserved, and
`linenoiseRaw` rejects `n = 0`), the state after the sequence satisfies
`pos ≤ len < n`.  The word-motion `linenoiseEditMoveWordStart` is the
one cursor move that can break this invariant; see
`moveWordStart_breaks_cursor_invariant`. -/
theorem editOps_cursor_le_length_lt_capacity (n : Nat) (hn : 0 < n)
    (ops : List EOp) :
    (applyOps (initState n) ops).pos ≤ (applyOps (initState n) ops).len ∧
    (applyOps (initState n) ops).len < n := by
  have h := applyOps_inv ops (initState n) (Nat.le_refl 0) (Nat.zero_le _)
  have hb : (initState n).buflen = n - 1 := rfl
  exact ⟨h.1, by omega⟩

/-- Concrete instance of the supporting invariant theorem. -/
theorem editOps_cursor_le_length_lt_capacity_witness :
    0 < 4 ∧
    ((applyOps (initState 4)
        [EOp.insert [104, 105], EOp.moveLeft, EOp.insert [33],
         EOp.backspace, EOp.moveRight, EOp.delete, EOp.moveHome,
         EOp.moveEnd]).pos ≤
      (applyOps (initState 4)
        [EOp.insert [104, 105], EOp.moveLeft, EOp.insert [33],
         EOp.backspace, EOp.moveRight, EOp.delete, EOp.moveHome,
         EOp.moveEnd]).len ∧
     (applyOps (initState 4)
        [EOp.insert [104, 105], EOp.moveLeft, EOp.insert [33],
         EOp.backspace, EOp.moveRight, EOp.delete, EOp.moveHome,
         EOp.moveEnd]).len < 4) :=
  ⟨by decide, editOps_cursor_le_length_lt_capacity 4 (by decide) _⟩

/-- C1: the claim that `cursor ≤ length < capacity` holds after every
Insert/Delete/Backspace/cursor-move operation fails on the code, because
the cursor moves include `linenoiseEditMoveWordStart` (ESC b), whose
first read `l->buf[l->pos-1]` has no `pos > 0` guard (unlike the two
loops just below it and every other word function).  From the reachable
session state after inserting byte 97 and moving home (buffer "a",
`len = 1`, `cursor = 0`), the read index wraps to `2 ^ 64 - 1`, and when
the out-of-allocation byte at `buf - 1` is a space (32) the code
executes `--l->pos`, wrapping the cursor to `2 ^ 64 - 1 > len`:
`cursor ≤ length` is destroyed.  The theorem evaluates the faithful
`size_t` model of that statement at this failing input. -/
theorem moveWordStart_breaks_cursor_invariant :
    (applyOps (initState 4) [EOp.insert [97], EOp.moveHome]).pos = 0 ∧
    (applyOps (initState 4) [EOp.insert [97], EOp.moveHome]).len = 1 ∧
    moveWordStartFirstIf 32
        (applyOps (initState 4) [EOp.insert [97], EOp.moveHome])
      = sizeTMod - 1 ∧
    ¬(moveWordStartFirstIf 32
        (applyOps (initState 4) [EOp.insert [97], EOp.moveHome])
      ≤ (applyOps (initState 4) [EOp.insert [97], EOp.moveHome]).len) := by
  decide

lemma writeAt_length (d src : List Nat) (i : Nat)
    (h : i + src.length ≤ d.length) :
    (writeAt d i src).length = d.length := by
  simp [writeAt, List.length_take, List.length_drop]
  omega

lemma take_writeAt (d src : List Nat) (i : Nat) (hi : i ≤ d.length) :
    (writeAt d i src).take (i + src.length) = d.take i ++ src := by
  unfold writeAt
  have hlen : (d.take i ++ src).length = i + src.length := by
    rw [List.length_append, List.length_take_of_le hi]
  rw [List.take_append_eq_append_take, hlen, Nat.sub_self, List.take_zero,
    List.append_nil, List.take_of_length_le (le_of_eq hlen)]

lemma insert_content_slow (d cbuf : List Nat) (p L : Nat) (hpL : p ≤ L)
    (hL : L + cbuf.length ≤ d.length) :
    ((writeAt (writeAt d (p + cbuf.length) ((d.drop p).take (L - p)))
        p cbuf).set (L + cbuf.length) 0).take (L + cbuf.length)
      = d.take p ++ cbuf ++ (d.drop p).take (L - p) := by
  set k := cbuf.length with hk
  set T := (d.drop p).take (L - p) with hT
  have hdp : p ≤ d.length := by omega
  have hTlen : T.length = L - p := by
    rw [hT]
    exact List.length_take_of_le (by simp [List.length_drop]; omega)
  set moved := writeAt d (p + k) T with hmoved
  have hA : (d.take (p + k)).length = p + k :=
    List.length_take_of_le (by omega)
  have hmt : moved.take p = d.take p := by
    rw [hmoved]
    unfold writeAt
    rw [List.take_append_of_le_length
        (show p ≤ (d.take (p + k) ++ T).length by
          rw [List.length_append, hA]; omega),
      List.take_append_of_le_length
        (show p ≤ (d.take (p + k)).length by rw [hA]; omega),
      List.take_take, Nat.min_eq_left (by omega)]
  have hmd : moved.drop (p + k) = T ++ d.drop (L + k) := by
    rw [hmoved]
    unfold writeAt
    rw [List.append_assoc, List.drop_left' hA]
    have harith : p + k + T.length = L + k := by rw [hTlen]; omega
    rw [harith]
  rw [List.set_take, List.set_eq_of_length_le (List.length_take_le _ _)]
  show ((moved.take p ++ cbuf) ++ moved.drop (p + k)).take (L + k)
      = d.take p ++ cbuf ++ T
  rw [hmt, hmd]
  have hl1 : (d.take p ++ cbuf).length = p + k := by
    rw [List.length_append, List.length_take_of_le hdp]
  rw [List.take_append_eq_append_take, hl1,
    List.take_of_length_le (show (d.take p ++ cbuf).length ≤ L + k by
      rw [hl1]; omega)]
  have he : L + k - (p + k) = L - p := by omega
  rw [he, List.take_append_eq_append_take, hTlen,
    List.take_of_length_le (show T.length ≤ L - p by rw [hTlen]),
    Nat.sub_self, List.take_zero, List.append_nil]

/-- C3: `linenoiseEditInsert` under the session invariant
(`pos ≤ len ≤ buflen < ` allocated size): when the insertion would push
`len` past `buflen` it is a silent no-op returning the state unchanged
(the C return value is 0, not an error, in that branch); otherwise it
splices the bytes at the cursor and advances both cursor and length by
exactly the byte count. -/
theorem linenoiseEditInsert_spec (s : LState) (cbuf : List Nat)
    (h1 : s.pos ≤ s.len) (h2 : s.len ≤ s.buflen)
    (h3 : s.buflen < s.data.length) :
    (s.buflen < s.len + cbuf.length → linenoiseEditInsert s cbuf = s) ∧
    (s.len + cbuf.length ≤ s.buflen →
      (linenoiseEditInsert s cbuf).pos = s.pos + cbuf.length ∧
      (linenoiseEditInsert s cbuf).len = s.len + cbuf.length ∧
      (linenoiseEditInsert s cbuf).buflen = s.buflen ∧
      content (linenoiseEditInsert s cbuf) =
        (content s).take s.pos ++ cbuf ++ (content s).drop s.pos) := by
  obtain ⟨d, bl, p, L⟩ := s
  have h1' : p ≤ L := h1
  have h2' : L ≤ bl := h2
  have h3' : bl < d.length := h3
  constructor
  · intro hover
    have hover' : bl < L + cbuf.length := hover
    simp only [linenoiseEditInsert]
    rw [if_neg (show ¬(L + cbuf.length ≤ bl) by omega)]
  · intro hfit
    have hfit' : L + cbuf.length ≤ bl := hfit
    have hcs : content ⟨d, bl, p, L⟩ = d.take L := rfl
    have hrhs : (d.take L).take p ++ cbuf ++ (d.take L).drop p
        = d.take p ++ cbuf ++ (d.drop p).take (L - p) := by
      rw [List.take_take, Nat.min_eq_left h1', List.drop_take]
    by_cases heq : L = p
    · subst heq
      have hres : linenoiseEditInsert ⟨d, bl, L, L⟩ cbuf =
          ⟨(writeAt d L cbuf).set (L + cbuf.length) 0, bl,
            L + cbuf.length, L + cbuf.length⟩ := by
        simp [linenoiseEditInsert, hfit']
      rw [hres, hcs, hrhs]
      refine ⟨rfl, rfl, rfl, ?_⟩
      show ((writeAt d L cbuf).set (L + cbuf.length) 0).take
          (L + cbuf.length) = d.take L ++ cbuf ++ (d.drop L).take (L - L)
      rw [List.set_take, List.set_eq_of_length_le (List.length_take_le _ _),
        take_writeAt d cbuf L (by omega)]
      simp
    · have hres : linenoiseEditInsert ⟨d, bl, p, L⟩ cbuf =
          ⟨(writeAt (writeAt d (p + cbuf.length)
              ((d.drop p).take (L - p))) p cbuf).set (L + cbuf.length) 0,
            bl, p + cbuf.length, L + cbuf.length⟩ := by
        simp [linenoiseEditInsert, hfit', heq]
      rw [hres, hcs, hrhs]
      exact ⟨rfl, rfl, rfl,
        insert_content_slow d cbuf p L h1' (by omega)⟩

/-- C3 witness: a mid-buffer splice that fits, and an overflowing
insertion that leaves the state untouched. -/
theorem linenoiseEditInsert_spec_witness :
    content (linenoiseEditInsert ⟨[104, 101, 0, 0, 0, 0], 5, 1, 2⟩
      [120, 121]) = [104, 120, 121, 101] ∧
    linenoiseEditInsert ⟨[104, 101, 0, 0, 0, 0], 5, 4, 4⟩
      [120, 121] = ⟨[104, 101, 0, 0, 0, 0], 5, 4, 4⟩ := by
  constructor
  · have hw := (linenoiseEditInsert_spec ⟨[104, 101, 0, 0, 0, 0], 5, 1, 2⟩
      [120, 121] (by decide) (by decide) (by decide)).2 (by decide)
    rw [hw.2.2.2]
    decide
  · exact (linenoiseEditInsert_spec ⟨[104, 101, 0, 0, 0, 0], 5, 4, 4⟩
      [120, 121] (by decide) (by decide) (by decide)).1 (by decide)

lemma columnPosGo_eq (buf : List Nat) (bl pos : Nat) :
    ∀ (fuel off ret : Nat), pos ≤ off + fuel →
      columnPosGo buf bl pos fuel off ret = ret + (pos - off) := by
  intro fuel
  induction fuel with
  | zero =>
    intro off ret h
    simp only [columnPosGo]
    omega
  | succ n ih =>
    intro off ret h
    simp only [columnPosGo, defaultNextCharLen, defaultNextCharColLen]
    split_ifs with hc
    · rw [ih (off + 1) (ret + 1) (by omega)]
      omega
    · omega

lemma columnPos_eq (buf : List Nat) (bl pos : Nat) :
    columnPos buf bl pos = pos := by
  unfold columnPos
  rw [columnPosGo_eq buf bl pos pos 0 0 (by omega)]
  omega

lemma singleClipLeftGo_spec (pcollen cols : Nat) (hp : pcollen < cols) :
    ∀ (fuel : Nat) (buf : List Nat) (len pos : Nat), pos ≤ fuel →
      pos ≤ len →
      (singleClipLeftGo pcollen cols fuel buf len pos).2.2 ≤
        (singleClipLeftGo pcollen cols fuel buf len pos).2.1 ∧
      pcollen + (singleClipLeftGo pcollen cols fuel buf len pos).2.2
        < cols := by
  intro fuel
  induction fuel with
  | zero =>
    intro buf len pos h1 h2
    simp only [singleClipLeftGo]
    exact ⟨h2, by omega⟩
  | succ n ih =>
    intro buf len pos h1 h2
    simp only [singleClipLeftGo, defaultNextCharLen, columnPos_eq]
    split_ifs with hc
    · exact ih (buf.drop 1) (len - 1) (pos - 1) (by omega) (by omega)
    · exact ⟨h2, show pcollen + pos < cols by omega⟩

lemma singleClipRightGo_spec (pcollen cols : Nat) (hp : pcollen < cols) :
    ∀ (fuel : Nat) (buf : List Nat) (len cpos : Nat), len ≤ fuel →
      cpos ≤ len → pcollen + cpos < cols →
      cpos ≤ singleClipRightGo pcollen cols buf fuel len ∧
      pcollen + singleClipRightGo pcollen cols buf fuel len ≤ cols := by
  intro fuel
  induction fuel with
  | zero =>
    intro buf len cpos h1 h2 h3
    simp only [singleClipRightGo]
    omega
  | succ n ih =>
    intro buf len cpos h1 h2 h3
    simp only [singleClipRightGo, defaultPrevCharLen, columnPos_eq]
    split_ifs with hc
    · exact ih buf (len - 1) cpos (by omega) (by omega) h3
    · exact ⟨h2, by omega⟩

/-- C7: for every buffer, cursor position within it, terminal width and
prompt column-width narrower than the terminal, the window produced by
the two clipping loops of `refreshSingleLine` contains the cursor (the
clipped cursor offset stays within the clipped length, and the prompt
plus the columns up to the cursor still fit strictly inside the terminal
width), and the full column-width of the window is at most the terminal width
minus the prompt width. -/
theorem refreshSingleLineClip_spec (pcollen cols : Nat) (buf : List Nat)
    (len pos : Nat) (hp : pcollen < cols) (hpos : pos ≤ len) :
    (refreshSingleLineClip pcollen cols buf len pos).2.2 ≤
      (refreshSingleLineClip pcollen cols buf len pos).2.1 ∧
    pcollen + columnPos (refreshSingleLineClip pcollen cols buf len pos).1
        (refreshSingleLineClip pcollen cols buf len pos).2.1
        (refreshSingleLineClip pcollen cols buf len pos).2.2 < cols ∧
    columnPos (refreshSingleLineClip pcollen cols buf len pos).1
        (refreshSingleLineClip pcollen cols buf len pos).2.1
        (refreshSingleLineClip pcollen cols buf len pos).2.1
      ≤ cols - pcollen := by
  have hL := singleClipLeftGo_spec pcollen cols hp pos buf len pos
    (Nat.le_refl pos) hpos
  have hR := singleClipRightGo_spec pcollen cols hp
    (singleClipLeftGo pcollen cols pos buf len pos).2.1
    (singleClipLeftGo pcollen cols pos buf len pos).1
    (singleClipLeftGo pcollen cols pos buf len pos).2.1
    (singleClipLeftGo pcollen cols pos buf len pos).2.2
    (Nat.le_refl _) hL.1 hL.2
  simp only [refreshSingleLineClip, singleClipLeft, singleClipRight,
    columnPos_eq]
  exact ⟨hR.1, by omega, by omega⟩

/-- C7 witness: prompt width 1, terminal width 5, an eight-byte line
with the cursor at byte 7. -/
theorem refreshSingleLineClip_spec_witness :
    (1 < 5 ∧ 7 ≤ 8) ∧
    ((refreshSingleLineClip 1 5 [97, 98, 99, 100, 101, 102, 103, 104]
        8 7).2.2 ≤
      (refreshSingleLineClip 1 5 [97, 98, 99, 100, 101, 102, 103, 104]
        8 7).2.1 ∧
     1 + columnPos
        (refreshSingleLineClip 1 5 [97, 98, 99, 100, 101, 102, 103, 104]
          8 7).1
        (refreshSingleLineClip 1 5 [97, 98, 99, 100, 101, 102, 103, 104]
          8 7).2.1
        (refreshSingleLineClip 1 5 [97, 98, 99, 100, 101, 102, 103, 104]
          8 7).2.2 < 5 ∧
     columnPos
        (refreshSingleLineClip 1 5 [97, 98, 99, 100, 101, 102, 103, 104]
          8 7).1
        (refreshSingleLineClip 1 5 [97, 98, 99, 100, 101, 102, 103, 104]
          8 7).2.1
        (refreshSingleLineClip 1 5 [97, 98, 99, 100, 101, 102, 103, 104]
          8 7).2.1 ≤ 5 - 1) :=
  ⟨⟨by decide, by decide⟩,
    refreshSingleLineClip_spec 1 5 [97, 98, 99, 100, 101, 102, 103, 104]
      8 7 (by decide) (by decide)⟩

lemma columnPosForMultiLineGo_eq (buf : List Nat) (bufLen cols : Nat)
    (hW : 0 < cols) :
    ∀ (fuel off ret colwid : Nat), off + fuel = bufLen → colwid < cols →
      columnPosForMultiLineGo buf bufLen bufLen cols fuel off ret colwid
        = ret + fuel := by
  intro fuel
  induction fuel with
  | zero =>
    intro off ret colwid h hcw
    simp [columnPosForMultiLineGo]
  | succ n ih =>
    intro off ret colwid h hcw
    simp only [columnPosForMultiLineGo, defaultNextCharLen,
      defaultNextCharColLen]
    rw [if_pos (show off < bufLen by omega)]
    have hd1 : ¬(0 < (colwid : Int) + ((1 : Nat) : Int) - (cols : Int)) :=
      by omega
    simp only [if_neg hd1]
    rw [if_neg (show ¬bufLen ≤ off by omega)]
    by_cases hz : (colwid : Int) + ((1 : Nat) : Int) - (cols : Int) = 0
    · simp only [if_pos hz]
      rw [ih (off + 1) (ret + 1) 0 (by omega) hW]
      omega
    · simp only [if_neg hz]
      rw [ih (off + 1) (ret + 1) (colwid + 1) (by omega) (by omega)]
      omega

/-- C8 counterexample: the claim quantifies over every prompt width and
every positive terminal width, but for prompt width 2, terminal width 2
and a two-byte buffer the code computes 3 rows while
`ceil((P + C) / W) = ceil(4 / 2) = 2`. -/
theorem multiLineRows_ne_ceil_at_wide_prompt :
    multiLineRows [97, 98] 2 2 2 = 3 ∧ (2 + 2 + 2 - 1) / 2 = 2 ∧
    multiLineRows [97, 98] 2 2 2 ≠ (2 + 2 + 2 - 1) / 2 := by
  decide

/-- C8 (amended with the prompt fitting inside the terminal width,
`P < W`, which the counterexample shows is necessary): the number of rows
computed by `refreshMultiLine` for a buffer of total column-width
`bufLen` equals `(P + C + W - 1) / W`, the ceiling of `(P + C) / W`; the
last two conjuncts state that ceiling property of the row count
explicitly. -/
theorem multiLineRows_eq_ceil (buf : List Nat) (bufLen pcollen cols : Nat)
    (hW : 0 < cols) (hP : pcollen < cols) :
    multiLineRows buf bufLen pcollen cols
      = (pcollen + bufLen + cols - 1) / cols ∧
    pcollen + bufLen ≤ cols * multiLineRows buf bufLen pcollen cols ∧
    (0 < pcollen + bufLen →
      cols * (multiLineRows buf bufLen pcollen cols - 1)
        < pcollen + bufLen) := by
  have hcp : columnPosForMultiLine buf bufLen bufLen cols pcollen
      = bufLen := by
    unfold columnPosForMultiLine
    rw [columnPosForMultiLineGo_eq buf bufLen cols hW bufLen 0 0 pcollen
      (by omega) hP]
    omega
  have hrows : multiLineRows buf bufLen pcollen cols
      = (pcollen + bufLen + cols - 1) / cols := by
    unfold multiLineRows
    rw [hcp]
  refine ⟨hrows, ?_, ?_⟩
  · rw [hrows]
    have hdm := Nat.div_add_mod (pcollen + bufLen + cols - 1) cols
    have hml := Nat.mod_lt (pcollen + bufLen + cols - 1) hW
    omega
  · intro hpos
    rw [hrows]
    have hdm := Nat.div_add_mod (pcollen + bufLen + cols - 1) cols
    have hml := Nat.mod_lt (pcollen + bufLen + cols - 1) hW
    have hq1 : 1 ≤ (pcollen + bufLen + cols - 1) / cols := by
      rw [Nat.le_div_iff_mul_le hW]
      omega
    have hmulsub : cols * ((pcollen + bufLen + cols - 1) / cols - 1)
        = cols * ((pcollen + bufLen + cols - 1) / cols) - cols := by
      rw [Nat.mul_sub]
      omega
    omega

/-- C8 witness: the claimed instance `P = 0`, `W = 10`, `C = 25` gives
row count 3. -/
theorem multiLineRows_eq_ceil_witness :
    (0 < 10 ∧ 0 < 10) ∧
    (multiLineRows (List.replicate 25 97) 25 0 10
        = (0 + 25 + 10 - 1) / 10 ∧
      0 + 25 ≤ 10 * multiLineRows (List.replicate 25 97) 25 0 10 ∧
      (0 < 0 + 25 →
        10 * (multiLineRows (List.replicate 25 97) 25 0 10 - 1)
          < 0 + 25)) :=
  ⟨⟨by decide, by decide⟩,
    multiLineRows_eq_ceil (List.replicate 25 97) 25 0 10
      (by decide) (by decide)⟩

lemma mwsSkipSpaces_some (s : LState) :
    ∀ p, p ≤ s.len → ∃ q, mwsSkipSpaces s p = some q ∧ q ≤ p := by
  intro p
  induction p with
  | zero =>
    intro h
    exact ⟨0, rfl, Nat.le_refl 0⟩
  | succ n ih =>
    intro h
    simp only [mwsSkipSpaces, readIdx, if_pos h]
    split_ifs with hc
    · obtain ⟨q, hq, hle⟩ := ih (by omega)
      exact ⟨q, hq, by omega⟩
    · exact ⟨n + 1, rfl, Nat.le_refl _⟩

lemma mwsSkipWord_some (s : LState) :
    ∀ p, p ≤ s.len → ∃ q, mwsSkipWord s p = some q := by
  intro p
  induction p with
  | zero =>
    intro h
    exact ⟨0, rfl⟩
  | succ n ih =>
    intro h
    simp only [mwsSkipWord, readIdx, if_pos (show n ≤ s.len by omega)]
    split_ifs with hc
    · exact ih (by omega)
    · exact ⟨n + 1, rfl⟩

/-- C10 counterexample: invoked at cursor 0 on a non-empty buffer,
`linenoiseEditMoveWordStart` reads `l->buf[l->pos - 1]`, whose `size_t`
index wraps to `2 ^ 64 - 1`: the instrumented embedding reports the
out-of-bounds read, so the branch the claim calls unreachable is taken. -/
theorem moveWordStart_oob_at_cursor_zero :
    linenoiseEditMoveWordStart ⟨[97, 0], 1, 0, 1⟩ = Option.none := by
  decide

/-- C10 (amended: the bound holds for every cursor position of at least
one character, while at cursor 0 the very first read is out of bounds as
the counterexample shows): for `1 ≤ pos ≤ len` (with `pos` in the
`size_t` range, as in C), every buffer read of
`linenoiseEditMoveWordStart` falls inside `[0, len]`, so the instrumented
embedding returns a cursor instead of the out-of-bounds marker. -/
theorem moveWordStart_reads_in_bounds (s : LState) (h1 : 1 ≤ s.pos)
    (h2 : s.pos ≤ s.len) (h3 : s.len < sizeTMod) :
    (linenoiseEditMoveWordStart s).isSome := by
  by_cases h0 : s.len = 0
  · simp [linenoiseEditMoveWordStart, h0]
  · have hmod : (s.pos + sizeTMod - 1) % sizeTMod = s.pos - 1 := by
      unfold sizeTMod at h3 ⊢
      omega
    have hr1 : readIdx s ((s.pos + sizeTMod - 1) % sizeTMod)
        = some (s.data.getD (s.pos - 1) 0) := by
      rw [hmod]
      unfold readIdx
      rw [if_pos (by omega)]
    simp only [linenoiseEditMoveWordStart, if_neg h0, hr1]
    set p1 := (if s.data.getD (s.pos - 1) 0 = 32 then s.pos - 1
      else s.pos) with hp1
    have hpos1 : p1 ≤ s.len := by
      rw [hp1]
      split_ifs <;> omega
    have hr2 : readIdx s p1 = some (s.data.getD p1 0) := by
      unfold readIdx
      rw [if_pos hpos1]
    rw [hr2]
    dsimp only
    by_cases hc2 : s.data.getD p1 0 = 32
    · rw [if_pos hc2]
      obtain ⟨q, hq, hqle⟩ := mwsSkipSpaces_some s p1 hpos1
      rw [hq]
      dsimp only
      obtain ⟨r, hr⟩ := mwsSkipWord_some s q (by omega)
      rw [hr]
      rfl
    · rw [if_neg hc2]
      dsimp only
      obtain ⟨r, hr⟩ := mwsSkipWord_some s p1 hpos1
      rw [hr]
      rfl

/-- C10 witness: the word-start motion from cursor 4 on the buffer
"ab cd" performs only in-bounds reads. -/
theorem moveWordStart_reads_in_bounds_witness :
    (1 ≤ 4 ∧ 4 ≤ 5 ∧ 5 < sizeTMod) ∧
    (linenoiseEditMoveWordStart
      ⟨[97, 98, 32, 99, 100, 0], 5, 4, 5⟩).isSome :=
  ⟨⟨by decide, by decide, by norm_num [sizeTMod]⟩,
    moveWordStart_reads_in_bounds ⟨[97, 98, 32, 99, 100, 0], 5, 4, 5⟩
      (by decide) (by decide) (by norm_num [sizeTMod])⟩

end Linenoise
